import Mathlib

/-!
# Verification of the image-placeholder auto-fit text layout engine

Shallow embedding of the algorithmic core of `src/index.js` (both endpoint
variants): the line wrapper `splitLines`, the font-size solver
`computeFontSize`, the wrap-width dichotomy of the `/image/:text` route, the
word renderer `drawWord`, and the color classifier `getColor`.

Strings are embedded as `List Char`; JavaScript float measurements are
embedded as `ℚ`.  The canvas measurement provider (`measureText`) is an
external collaborator and enters as a function parameter, as does the
collator used by the external `fast-levenshtein` package.  The line-height
formula (`computeLineHeight`) uses the float power `lines.length ** 1.5`,
which is irrational; since no verified claim depends on its value it enters
the route embedding as an oracle parameter `lh`, threaded exactly where the
source calls `computeLineHeight`.
-/

set_option autoImplicit false

-- Let concrete runs of the embedding evaluate inside the kernel:
-- these rational operations are otherwise irreducible.
attribute [local semireducible] Rat.add Rat.sub Rat.mul Rat.inv

namespace ImagePlaceholder

/-- Embedding of the object returned by `context.measureText`:
`{ width, actualBoundingBoxAscent, actualBoundingBoxDescent }`. -/
structure MeasuredText where
  width : ℚ
  ascent : ℚ
  descent : ℚ
deriving DecidableEq, Repr

/-- The fixed canvas dimensions `canvasWidth` / `canvasHeight` (set from the
environment at startup; `canvasHeight = canvasWidth / ratio`). -/
structure Canvas where
  width : ℚ
  height : ℚ
deriving DecidableEq, Repr

/-- A measurement provider: text and font size to measured bounding box.
The source sets `context.font = getFont(size)` and calls
`context.measureText(text)`; the embedding fuses the two. -/
def Measure : Type := List Char → Nat → MeasuredText

/-- The fit test of the source, negated: the source branches on
`textWidth > canvasWidth || actualBoundingBoxDescent + actualBoundingBoxAscent > canvasHeight`
(overflow); `fitsB` is the complement of that overflow test. -/
def fitsB (cv : Canvas) (m : MeasuredText) : Bool :=
  decide (m.width ≤ cv.width) && decide (m.descent + m.ascent ≤ cv.height)

/-! ## JavaScript string primitives

`String.prototype.split`, `lastIndexOf`, `indexOf` on `List Char`. -/

/-- `text.split(sep)` for a single-character separator: `n` separators yield
`n + 1` parts; `"".split(sep)` is `[""]`. -/
def jsSplitOn (sep : Char) : List Char → List (List Char)
  | [] => [[]]
  | c :: rest =>
    match jsSplitOn sep rest with
    | [] => [[]]
    | s :: ss => if c = sep then [] :: s :: ss else (c :: s) :: ss

/-- `text.split('\n')`. -/
def jsSplitNewline (text : List Char) : List (List Char) :=
  jsSplitOn '\n' text

/-- `parts.join(sep)` for a single-character separator (JavaScript
`Array.prototype.join`). -/
def jsJoin (sep : Char) : List (List Char) → List Char
  | [] => []
  | [l] => l
  | l :: l2 :: rest => l ++ sep :: jsJoin sep (l2 :: rest)

/-- `s.lastIndexOf(' ')`: index of the last space, `-1` if none. -/
def lastIdxSpace : List Char → Int
  | [] => -1
  | c :: rest =>
    let r := lastIdxSpace rest
    if 0 ≤ r then r + 1 else if c = ' ' then 0 else -1

/-- `s.indexOf(' ', start)`: index of the first space at position `≥ start`,
`-1` if none. -/
def idxSpaceFrom (s : List Char) (start : Nat) : Int :=
  match List.findIdx? (fun c => c = ' ') (s.drop start) with
  | some j => (start : Int) + j
  | none => -1

/-! ## Line wrapper (`splitLines`, source lines 335-357; the `/review` route
duplicates the same loop at lines 116-131)

One iteration of the `while (line.length > maxLineLength)` body computes
`pos = line.substring(0, maxLineLength).lastIndexOf(' ')`, forces
`pos = maxLineLength` when `pos <= 0`, emits `line.substring(0, pos)`, then
computes `i = line.indexOf(' ', pos) + 1`, falling back to `i = pos` when
`i < pos || i > pos + maxLineLength`, and continues with
`line.substring(i)`.  The body is split into `splitPos` / `splitAdv` /
`splitStep` below. -/

/-- The break position of one loop body: last space within the first
`maxLineLength` characters, forced to `maxLineLength` when `pos <= 0`. -/
def splitPos (L : Nat) (line : List Char) : Nat :=
  if lastIdxSpace (line.take L) ≤ 0 then L else (lastIdxSpace (line.take L)).toNat

/-- The continuation index of one loop body:
`i = line.indexOf(' ', pos) + 1`, with the fallback `i = pos` when
`i < pos || i > pos + maxLineLength`. -/
def splitAdv (L : Nat) (line : List Char) : Nat :=
  let pos := splitPos L line
  let i0 : Int := idxSpaceFrom line pos + 1
  if i0 < (pos : Int) ∨ (pos : Int) + (L : Int) < i0 then pos else i0.toNat

/-- One loop body: emit `line.substring(0, pos)`, continue with
`line.substring(i)`. -/
def splitStep (L : Nat) (line : List Char) : List Char × List Char :=
  (line.take (splitPos L line), line.drop (splitAdv L line))

/-- The `while` loop of `splitLines` on one newline-delimited segment,
with explicit fuel: `none` models non-termination of the source loop
(with sufficient fuel, proved below, `none` occurs exactly when the
JavaScript loop runs forever). -/
def splitSegF (L : Nat) : Nat → List Char → Option (List (List Char))
  | 0, _ => none
  | fuel + 1, line =>
    if L < line.length then
      let st := splitStep L line
      (splitSegF L fuel st.2).map (fun ls => st.1 :: ls)
    else
      some [line]

/-- `splitLines(text, maxLineLength)`: split on explicit newlines, run the
wrap loop on each segment, flatten.  Fuel `segment length + 1` is sufficient
whenever the source loop terminates. -/
def splitLines (text : List Char) (L : Nat) : Option (List (List Char)) :=
  ((jsSplitNewline text).mapM (fun seg => splitSegF L (seg.length + 1) seg)).map List.flatten

/-! ## Font-size solver (`computeFontSize`, source lines 294-333)

A do-while dichotomy on `{min: 0, max: maxFontSize}`:
`mid = floor((min+max)/2)`; on overflow `max := mid`, else `min := mid`;
repeat while `max - min > 1`; return `min`. -/

/-- One body of the `computeFontSize` do-while loop, on the state
`(min, max)`, for the fit predicate of the measured text. -/
def fszBody (fit : Nat → Bool) (st : Nat × Nat) : Nat × Nat :=
  let mid := (st.1 + st.2) / 2
  if fit mid then (mid, st.2) else (st.1, mid)

/-- The do-while loop of `computeFontSize`: runs the body, then repeats while
`max - min > 1`.  Fuel bounds the iteration count; `maxFontSize + 1` is
always sufficient because the gap `max - min` strictly decreases whenever
the loop continues. -/
def fszLoop (fit : Nat → Bool) : Nat → Nat × Nat → Nat × Nat
  | 0, st => st
  | fuel + 1, st =>
    let st2 := fszBody fit st
    if 1 < st2.2 - st2.1 then fszLoop fit fuel st2 else st2

/-- `computeFontSize(text)`: dichotomy from `{min: 0, max: maxFontSize}`,
returning the final `min`.  The measurement provider, canvas and the global
`maxFontSize` enter as parameters. -/
def computeFontSize (measure : Measure) (cv : Canvas) (M : Nat) (text : List Char) : Nat :=
  (fszLoop (fun s => fitsB cv (measure text s)) (M + 1) (0, M)).1

/-- The dichotomy invariant of `computeFontSize`: `min` stays in
`[0, maxFontSize - 1]` and is `0` or fitting; `max` stays in
`[0, maxFontSize]` and is the initial bound or non-fitting. -/
def fszI (fit : Nat → Bool) (M : Nat) (st : Nat × Nat) : Prop :=
  st.1 ≤ M - 1 ∧ st.2 ≤ M ∧ (st.1 = 0 ∨ fit st.1 = true) ∧ (st.2 = M ∨ fit st.2 = false)

/-! ## Word renderer (`drawWord`, source lines 265-286; variant A at 74-87)

`drawWord(context, word, x, y)`: if the word has length `> 1` and ends with
`'!'`, recursively draw the word without the final `'!'` and then `'!'` at
`x + textSize` where `textSize` is the recursive call's return value;
otherwise draw the word at `x` and return
`context.measureText(word + ' ').width`.  The embedding records the draw
calls (text and x-offset) and the returned advance; it recurses on the
reversed character list so the recursion is structural. -/
def drawWordRev (w : List Char → ℚ) (x : ℚ) : List Char → List (List Char × ℚ) × ℚ
  | [] => ([([], x)], w [' '])
  | c :: rest =>
    if c = '!' ∧ rest ≠ [] then
      let r := drawWordRev w x rest
      (r.1 ++ [(['!'], x + r.2)], r.2 + w ['!', ' '])
    else
      ([((c :: rest).reverse, x)], w ((c :: rest).reverse ++ [' ']))

/-- `drawWord` on a word in source order: the emitted draw calls
(text, x-offset) in order, and the returned horizontal advance.
`w` is `fun s => context.measureText(s).width` at the current font. -/
def drawWord (w : List Char → ℚ) (word : List Char) (x : ℚ) : List (List Char × ℚ) × ℚ :=
  drawWordRev w x word.reverse

/-! ## Color classifier (`getColor`, source lines 241-255)

`getColor(word)`: base color for a falsy word; otherwise the special color
exactly when some configured special word matches — Levenshtein distance
`≤ 2` (with `useCollator: true`) for special words of length `> 3`,
case-insensitive equality otherwise. -/

/-- The configured colors and special word list
(`baseFontColor`, `specialWordFontColor`, `specialWordList`). -/
structure ColorCfg where
  base : String
  special : String
  specialWords : List (List Char)

/-- Modelled from the spec: the external `fast-levenshtein` package (not part
of this repository) computes the Levenshtein edit distance, comparing
characters through a collator when `useCollator` is set.  Textbook
Levenshtein recurrence, parameterized by the collator's character
equivalence `eqc`; fuel `|s| + |t|` makes the recursion structural and is
always sufficient. -/
def levF (eqc : Char → Char → Bool) : Nat → List Char → List Char → Nat
  | 0, s, t => s.length + t.length
  | _ + 1, [], t => t.length
  | _ + 1, s, [] => s.length
  | fuel + 1, x :: xs, y :: ys =>
    if eqc x y then levF eqc fuel xs ys
    else 1 + min (levF eqc fuel xs (y :: ys)) (min (levF eqc fuel (x :: xs) ys) (levF eqc fuel xs ys))

/-- `levenshtein.get(s, t, { useCollator: true })`, the collator entering as
the character equivalence `eqc`. -/
def levenshtein (eqc : Char → Char → Bool) (s t : List Char) : Nat :=
  levF eqc (s.length + t.length) s t

/-- `getColor(word)` (source lines 241-255). -/
def getColor (cfg : ColorCfg) (eqc : Char → Char → Bool) (word : List Char) : String :=
  if word = [] then cfg.base
  else if cfg.specialWords.any (fun sw =>
      if 3 < sw.length then levenshtein eqc word sw ≤ 2
      else word.map Char.toLower = sw.map Char.toLower)
  then cfg.special
  else cfg.base

/-! ## The `/image/:text` route (source lines 371-470)

The wrap-width dichotomy plus the render phase.  The state is the source's
`dichotomy` object `{min, max, maxFontSize, lines}`. -/

/-- The `dichotomy` object of the `/image/:text` handler. -/
structure Dicho where
  min : Nat
  max : Nat
  maxFontSize : Nat
  lines : List (List Char)
deriving Repr

/-- The line-height oracle standing for `computeLineHeight(lines, textDetails)`
(source lines 359-366): its float formula multiplies
`(descent + ascent) / lines.length` by a ratio-table entry or by
`0.7 / lines.length ** 1.5 + 1`, which is irrational; no verified claim
depends on its value. -/
def LineHeight : Type := List (List Char) → MeasuredText → ℚ

/-- One body of the wrap-width do-while loop (source lines 393-428):
`newMaxLineLength = floor((min+max)/2)`; wrap; solve the font size for the
newline-join of the wrapped lines; adopt strictly better candidates and
branch on the vertical-headroom guard
`canvasHeight - descent + ascent > lineHeight * 2`; otherwise `max := mid`.
`none` propagates non-termination of `splitLines`. -/
def routeBody (measure : Measure) (cv : Canvas) (M : Nat) (lh : LineHeight)
    (text : List Char) (d : Dicho) : Option Dicho :=
  let mid := (d.min + d.max) / 2
  (splitLines text mid).map (fun splitted =>
    let nf := computeFontSize measure cv M (jsJoin '\n' splitted)
    if d.maxFontSize < nf then
      let td := measure (jsJoin '\n' splitted) nf
      let lhv := lh splitted td
      if lhv * 2 < cv.height - td.descent + td.ascent then
        { min := d.min, max := mid, maxFontSize := nf, lines := splitted }
      else
        { min := mid, max := d.max, maxFontSize := nf, lines := splitted }
    else
      { d with max := mid })

/-- The wrap-width do-while loop: body, then repeat while `max - min > 1`. -/
def routeLoop (measure : Measure) (cv : Canvas) (M : Nat) (lh : LineHeight)
    (text : List Char) : Nat → Dicho → Option Dicho
  | 0, _ => none
  | fuel + 1, d =>
    match routeBody measure cv M lh text d with
    | none => none
    | some d2 =>
      if 1 < d2.max - d2.min then routeLoop measure cv M lh text fuel d2 else some d2

/-- A recorded `fillText`/emoji draw call: text, x, y. -/
structure Draw where
  txt : List Char
  x : ℚ
  y : ℚ
deriving DecidableEq, Repr

/-- The inner word loop of the render phase: starting x, then
`x += drawWord(context, word, x, y, fontSize)` per word. -/
def renderWords (w : List Char → ℚ) : List (List Char) → ℚ → List (List Char × ℚ)
  | [], _ => []
  | word :: rest, x =>
    let r := drawWord w word x
    r.1 ++ renderWords w rest (x + r.2)

/-- One line of the render phase:
`x = (canvasWidth - context.measureText(line).width) / 2`, then draw each
word of `line.split(' ')`. -/
def renderLine (w : List Char → ℚ) (cvW : ℚ) (line : List Char) : List (List Char × ℚ) :=
  renderWords w (jsSplitOn ' ' line) ((cvW - w line) / 2)

/-- The per-line loop of the render phase: y starts at
`(canvasHeight - descent + ascent) / 2` and grows by `lineHeight`. -/
def renderAll (w : List Char → ℚ) (cvW : ℚ) (lhv : ℚ) : List (List Char) → ℚ → List Draw
  | [], _ => []
  | line :: rest, y =>
    (renderLine w cvW line).map (fun p => ⟨p.1, p.2, y⟩) ++ renderAll w cvW lhv rest (y + lhv)

/-- The render phase of the `/image/:text` handler (source lines 430-460),
run unconditionally after the dichotomy with `dichotomy.maxFontSize` and
`dichotomy.lines`. -/
def renderPhase (measure : Measure) (cv : Canvas) (lh : LineHeight)
    (fontSize : Nat) (lines : List (List Char)) : List Draw :=
  let td := measure (jsJoin '\n' lines) fontSize
  let lhv := lh lines td
  let y0 := (cv.height - td.descent + td.ascent) / 2
  renderAll (fun s => (measure s fontSize).width) cv.width lhv lines y0

/-- `lines.reduce((max, line) => line.length > max ? line.length : max, 0)`. -/
def getLongestLineLength (ls : List (List Char)) : Nat :=
  ls.foldl (fun m l => if m < l.length then l.length else m) 0

/-- The `/image/:text` handler (source lines 371-470): split the request text
on newlines, seed the dichotomy with `computeFontSize(lines)` — note the
source passes the `lines` array itself, which `measureText` coerces to the
string `lines.join(',')` — run the wrap-width dichotomy, then render.
Returns the chosen font size, the chosen lines, and the draw calls of the
render phase; `none` models non-termination. -/
def imageRoute (measure : Measure) (cv : Canvas) (M : Nat) (lh : LineHeight)
    (text : List Char) : Option (Nat × List (List Char) × List Draw) :=
  let lines0 := jsSplitNewline text
  let seed := computeFontSize measure cv M (jsJoin ',' lines0)
  let d0 : Dicho := ⟨0, getLongestLineLength lines0, seed, lines0⟩
  (routeLoop measure cv M lh text (d0.max + 1) d0).map (fun d =>
    (d.maxFontSize, d.lines, renderPhase measure cv lh d.maxFontSize d.lines))

/-! ## Decidable side conditions and concrete instances

`noAdjB` decides "no two adjacent spaces"; concrete measurement providers,
canvases and configurations instantiate the claim theorems. -/

/-- Decides that no two spaces are adjacent in a character list. -/
def noAdjB : List Char → Bool
  | c1 :: c2 :: rest => !(c1 = ' ' && c2 = ' ') && noAdjB (c2 :: rest)
  | _ => true

/-- Decides that every non-space run (equivalently, every all-non-space
contiguous piece) is strictly shorter than `L`: checks all inits of all
tails. -/
def runsLtB (L : Nat) (l : List Char) : Bool :=
  l.tails.all (fun t => t.inits.all (fun w => !(w.all (fun c => !(c = ' '))) || decide (w.length < L)))

/-- A measurement provider returning the zero box for every text and size:
everything fits. -/
def measureZero : Measure := fun _ _ => ⟨0, 0, 0⟩

/-- The default canvas: `CANVAS_WIDTH = 1275`, `canvasHeight = 1275 / (1275/362) = 362`. -/
def cvDefault : Canvas := ⟨1275, 362⟩

/-- A measurement provider whose width equals the font size: monotone, and
the fit threshold sits strictly inside the search range. -/
def mLin : Measure := fun _ s => ⟨(s : ℚ), 0, 0⟩

/-- A small square canvas. -/
def cv10 : Canvas := ⟨10, 10⟩

/-- A deterministic, size-monotone measurement provider in the style of a
real text measurer: width grows with the longest newline-delimited segment,
ascent with the number of segments. -/
def mSeg : Measure := fun t s =>
  ⟨(s : ℚ) * ((getLongestLineLength (jsSplitNewline t) : Nat) : ℚ),
   (s : ℚ) * (((jsSplitNewline t).length : Nat) : ℚ), 0⟩

/-- A wide canvas with little height: two stacked lines overflow. -/
def cvC2 : Canvas := ⟨10, 3 / 2⟩

/-- A measurement provider that never fits a width-10 canvas (width `11 + s`,
monotone in `s`). -/
def mBig : Measure := fun _ s => ⟨11 + (s : ℚ), 0, 0⟩

/-- A concrete line-height oracle (its value is irrelevant to every claim
proved here). -/
def lh0 : LineHeight := fun _ _ => 0

/-- A width function counting one unit per character, space included. -/
def charWidth : List Char → ℚ := fun s => (s.length : ℚ)

/-- Plain character equality as the collator equivalence. -/
def eqb : Char → Char → Bool := fun a b => a = b

/-- Default colors with the special word list `["ok"]`. -/
def cfgOk : ColorCfg := ⟨"#fff", "#FB7417", [['o', 'k']]⟩

/-- Default colors with the special word list `["wonderful"]`. -/
def cfgWonder : ColorCfg :=
  ⟨"#fff", "#FB7417", [['w', 'o', 'n', 'd', 'e', 'r', 'f', 'u', 'l']]⟩

/-! ## Properties of `jsSplitOn` and `jsJoin` -/

theorem jsSplitOn_cons (sep c : Char) (rest s : List Char) (ss : List (List Char))
    (h : jsSplitOn sep rest = s :: ss) :
    jsSplitOn sep (c :: rest) = if c = sep then [] :: s :: ss else (c :: s) :: ss := by
  simp only [jsSplitOn, h]

theorem jsSplitOn_ne_nil (sep : Char) (t : List Char) : jsSplitOn sep t ≠ [] := by
  induction t with
  | nil => simp [jsSplitOn]
  | cons c rest ih =>
    cases h : jsSplitOn sep rest with
    | nil => exact absurd h ih
    | cons s ss =>
      rw [jsSplitOn_cons sep c rest s ss h]
      split <;> simp

theorem not_mem_of_mem_jsSplitOn (sep : Char) :
    ∀ (t : List Char), ∀ seg ∈ jsSplitOn sep t, sep ∉ seg := by
  intro t
  induction t with
  | nil =>
    intro seg hseg
    simp [jsSplitOn] at hseg
    simp [hseg]
  | cons c rest ih =>
    intro seg hseg
    cases h : jsSplitOn sep rest with
    | nil => exact absurd h (jsSplitOn_ne_nil sep rest)
    | cons s ss =>
      rw [jsSplitOn_cons sep c rest s ss h] at hseg
      have hs : s ∈ jsSplitOn sep rest := by rw [h]; exact List.mem_cons_self _ _
      by_cases hc : c = sep
      · rw [if_pos hc] at hseg
        rcases List.mem_cons.mp hseg with h1 | h1
        · simp [h1]
        · exact ih seg (by rw [h]; exact h1)
      · rw [if_neg hc] at hseg
        rcases List.mem_cons.mp hseg with h1 | h1
        · subst h1
          intro hmem
          rcases List.mem_cons.mp hmem with h2 | h2
          · exact hc h2.symm
          · exact ih s hs h2
        · exact ih seg (by rw [h]; exact List.mem_cons_of_mem _ h1)

theorem jsSplitOn_no_sep (sep : Char) (l : List Char) (h : sep ∉ l) :
    jsSplitOn sep l = [l] := by
  induction l with
  | nil => rfl
  | cons c rest ih =>
    have hc : ¬ c = sep := fun e => h (by simp [e])
    have hr : sep ∉ rest := fun e => h (List.mem_cons_of_mem _ e)
    rw [jsSplitOn_cons sep c rest rest [] (ih hr)]
    simp [hc]

theorem jsSplitOn_append (sep : Char) (a t : List Char) (ha : sep ∉ a) :
    jsSplitOn sep (a ++ sep :: t) = a :: jsSplitOn sep t := by
  induction a with
  | nil =>
    cases h : jsSplitOn sep t with
    | nil => exact absurd h (jsSplitOn_ne_nil sep t)
    | cons s ss =>
      rw [List.nil_append, jsSplitOn_cons sep sep t s ss h]
      simp [h]
  | cons c a2 ih =>
    have hc : ¬ c = sep := fun e => ha (by simp [e])
    have ha2 : sep ∉ a2 := fun e => ha (List.mem_cons_of_mem _ e)
    rw [List.cons_append, jsSplitOn_cons sep c _ a2 (jsSplitOn sep t) (ih ha2)]
    simp [hc]

theorem jsJoin_cons (sep : Char) (l : List Char) (ls : List (List Char)) (h : ls ≠ []) :
    jsJoin sep (l :: ls) = l ++ sep :: jsJoin sep ls := by
  cases ls with
  | nil => exact absurd rfl h
  | cons l2 rest => rfl

theorem jsSplitOn_jsJoin (sep : Char) :
    ∀ ls : List (List Char), ls ≠ [] → (∀ l ∈ ls, sep ∉ l) →
      jsSplitOn sep (jsJoin sep ls) = ls := by
  intro ls
  induction ls with
  | nil => intro h _; exact absurd rfl h
  | cons l rest ih =>
    intro _ hmem
    cases rest with
    | nil => exact jsSplitOn_no_sep sep l (hmem l (List.mem_cons_self _ _))
    | cons l2 rest2 =>
      rw [jsJoin_cons sep l _ (by simp)]
      rw [jsSplitOn_append sep l _ (hmem l (List.mem_cons_self _ _))]
      rw [ih (by simp) (fun x hx => hmem x (List.mem_cons_of_mem _ hx))]

/-! ## Properties of `lastIdxSpace` and `idxSpaceFrom` -/

theorem lastIdxSpace_neg (l : List Char) : lastIdxSpace l < 0 ↔ ' ' ∉ l := by
  induction l with
  | nil => simp [lastIdxSpace]
  | cons c rest ih =>
    simp only [lastIdxSpace]
    by_cases h : 0 ≤ lastIdxSpace rest
    · have hmem : ' ' ∈ rest := by
        by_contra hn
        exact absurd (ih.mpr hn) (by omega)
      rw [if_pos h]
      constructor
      · intro hlt; omega
      · intro hnot; exact absurd (List.mem_cons_of_mem _ hmem) hnot
    · have hn : ' ' ∉ rest := ih.mp (by omega)
      rw [if_neg h]
      by_cases hc : c = ' '
      · simp [hc]
      · have : ¬ (' ' = c) := fun e => hc e.symm
        simp [hc, hn, this]

theorem lastIdxSpace_append (u v : List Char) (hv : ' ' ∉ v) :
    lastIdxSpace (u ++ ' ' :: v) = u.length := by
  induction u with
  | nil =>
    have hneg : lastIdxSpace v < 0 := (lastIdxSpace_neg v).mpr hv
    simp only [List.nil_append, lastIdxSpace]
    rw [if_neg (by omega)]
    simp
  | cons c u2 ih =>
    have h0 : 0 ≤ lastIdxSpace (u2 ++ ' ' :: v) := by
      rw [ih]; exact Int.natCast_nonneg _
    simp only [List.cons_append, lastIdxSpace, List.append_eq]
    rw [if_pos h0, ih]
    simp

theorem lastIdxSpace_decomp (l : List Char) (h : 0 ≤ lastIdxSpace l) :
    ∃ u v, l = u ++ ' ' :: v ∧ (u.length : Int) = lastIdxSpace l ∧ ' ' ∉ v := by
  induction l with
  | nil => simp [lastIdxSpace] at h
  | cons c rest ih =>
    by_cases h0 : 0 ≤ lastIdxSpace rest
    · obtain ⟨u, v, e, hlen, hv⟩ := ih h0
      refine ⟨c :: u, v, by simp [e], ?_, hv⟩
      simp only [lastIdxSpace, if_pos h0, List.length_cons]
      push_cast
      omega
    · by_cases hc : c = ' '
      · refine ⟨[], rest, by simp [hc], ?_, (lastIdxSpace_neg rest).mp (by omega)⟩
        simp [lastIdxSpace, if_neg h0, hc]
      · exfalso
        simp only [lastIdxSpace, if_neg h0, if_neg hc] at h
        omega

theorem lastIdxSpace_lt_length (l : List Char) : lastIdxSpace l < l.length := by
  induction l with
  | nil => simp [lastIdxSpace]
  | cons c rest ih =>
    simp only [lastIdxSpace, List.length_cons]
    by_cases h : 0 ≤ lastIdxSpace rest
    · rw [if_pos h]; push_cast; omega
    · rw [if_neg h]
      split <;> push_cast <;> omega

theorem idxSpaceFrom_ge (s : List Char) (start : Nat) : -1 ≤ idxSpaceFrom s start := by
  unfold idxSpaceFrom
  cases h : List.findIdx? (fun c => c = ' ') (s.drop start) with
  | none => simp
  | some j => simp; omega

theorem idxSpaceFrom_self (s : List Char) (start : Nat)
    (h : (s.drop start).head? = some ' ') : idxSpaceFrom s start = start := by
  rcases hd : s.drop start with _ | ⟨c, t⟩
  · rw [hd] at h; cases h
  · rw [hd] at h
    have hc : c = ' ' := by simpa using h
    unfold idxSpaceFrom
    rw [hd, List.findIdx?_cons]
    simp [hc]

/-! ## Properties of the wrap-loop body -/

theorem splitPos_pos (L : Nat) (line : List Char) (hL : 1 ≤ L) :
    1 ≤ splitPos L line := by
  unfold splitPos
  split
  · exact hL
  · omega

theorem splitPos_le (L : Nat) (line : List Char) : splitPos L line ≤ L := by
  unfold splitPos
  split
  · exact Nat.le_refl L
  · have h1 := lastIdxSpace_lt_length (line.take L)
    have h2 : (line.take L).length ≤ L := by
      rw [List.length_take]; omega
    omega

theorem splitAdv_pos (L : Nat) (line : List Char) (hL : 1 ≤ L) :
    1 ≤ splitAdv L line := by
  have hp := splitPos_pos L line hL
  unfold splitAdv
  dsimp only
  split
  · exact hp
  · next h =>
    push_neg at h
    omega

theorem splitStep_fst_subset (L : Nat) (line : List Char) :
    ∀ c ∈ (splitStep L line).1, c ∈ line := by
  intro c hc
  exact List.take_subset _ _ hc

theorem splitStep_snd_subset (L : Nat) (line : List Char) :
    ∀ c ∈ (splitStep L line).2, c ∈ line := by
  intro c hc
  exact List.drop_subset _ _ hc

theorem splitStep_fst_len (L : Nat) (line : List Char) :
    (splitStep L line).1.length ≤ L := by
  unfold splitStep
  have := splitPos_le L line
  simp only [List.length_take]
  omega

theorem splitStep_snd_len (L : Nat) (line : List Char) (hL : 1 ≤ L)
    (hlen : L < line.length) : (splitStep L line).2.length < line.length := by
  unfold splitStep
  have := splitAdv_pos L line hL
  simp only [List.length_drop]
  omega

theorem splitStep_forced_len (L : Nat) (line : List Char)
    (h : lastIdxSpace (line.take L) ≤ 0) (hlen : L < line.length) :
    (splitStep L line).1.length = L := by
  unfold splitStep splitPos
  rw [if_pos h]
  simp only [List.length_take]
  omega

theorem splitStep_zero (line : List Char) : splitStep 0 line = ([], line) := by
  have hk := idxSpaceFrom_ge line (splitPos 0 line)
  have hp : splitPos 0 line = 0 := by
    have := splitPos_le 0 line
    omega
  unfold splitStep splitAdv
  dsimp only
  rw [hp] at hk ⊢
  simp only [List.take_zero]
  split
  · simp
  · next h =>
    push_neg at h
    simp only [Nat.cast_zero] at h
    have : idxSpaceFrom line 0 + 1 = 0 := by omega
    rw [this]
    simp

/-- The regular break case: the first `L` characters contain a space at a
positive index (last such space at position `|u|`), so the body emits `u`
and continues right after the space. -/
theorem splitStep_space (L : Nat) (line u v : List Char) (hL : 1 ≤ L)
    (htake : line.take L = u ++ ' ' :: v) (hu : u ≠ []) (hv : ' ' ∉ v) :
    splitStep L line = (u, v ++ line.drop L) := by
  have hul : 1 ≤ u.length := by
    cases u with
    | nil => exact absurd rfl hu
    | cons a b => simp
  have hp : lastIdxSpace (line.take L) = (u.length : Int) := by
    rw [htake]; exact lastIdxSpace_append u v hv
  have hpos : splitPos L line = u.length := by
    unfold splitPos
    rw [hp, if_neg (by omega)]
    omega
  have hline : line = u ++ ' ' :: (v ++ line.drop L) := by
    conv_lhs => rw [← List.take_append_drop L line]
    rw [htake]
    simp
  have hdrop : line.drop u.length = ' ' :: (v ++ line.drop L) := by
    conv_lhs => rw [hline]
    exact List.drop_left u _
  have hidx : idxSpaceFrom line u.length = (u.length : Int) := by
    apply idxSpaceFrom_self
    rw [hdrop]
    rfl
  have hadv : splitAdv L line = u.length + 1 := by
    unfold splitAdv
    dsimp only
    rw [hpos, hidx, if_neg (by push_neg; constructor <;> omega)]
    omega
  unfold splitStep
  rw [hpos, hadv]
  refine congrArg₂ Prod.mk ?_ ?_
  · conv_lhs => rw [hline]
    exact List.take_left u _
  · have h1 : line.drop (u.length + 1) = (line.drop u.length).drop 1 := by
      rw [List.drop_drop, Nat.add_comm]
    rw [h1, hdrop]
    rfl

/-! ## Properties of the wrap loop `splitSegF` and of `splitLines` -/

theorem splitSegF_some_ne (L : Nat) : ∀ (fuel : Nat) (line : List Char)
    (ls : List (List Char)), splitSegF L fuel line = some ls → ls ≠ [] := by
  intro fuel
  induction fuel with
  | zero => intro line ls h; cases h
  | succ f ih =>
    intro line ls h
    simp only [splitSegF] at h
    split at h
    · rcases Option.map_eq_some'.mp h with ⟨ls2, h2, rfl⟩
      simp
    · rw [Option.some_inj] at h
      subst h
      simp

theorem splitSegF_total (L : Nat) (hL : 1 ≤ L) : ∀ (fuel : Nat) (line : List Char),
    line.length < fuel →
    ∃ ls, splitSegF L fuel line = some ls ∧
      ∀ l ∈ ls, l.length ≤ L ∧ ∀ c ∈ l, c ∈ line := by
  intro fuel
  induction fuel with
  | zero => intro line h; omega
  | succ f ih =>
    intro line hlen
    by_cases hbig : L < line.length
    · obtain ⟨ls2, h2, hprop⟩ := ih (splitStep L line).2
        (by have := splitStep_snd_len L line hL hbig; omega)
      refine ⟨(splitStep L line).1 :: ls2, ?_, ?_⟩
      · simp only [splitSegF, if_pos hbig]
        rw [h2]
        rfl
      · intro l hl
        rcases List.mem_cons.mp hl with rfl | hl2
        · exact ⟨splitStep_fst_len L line, splitStep_fst_subset L line⟩
        · obtain ⟨ha, hb⟩ := hprop l hl2
          exact ⟨ha, fun c hc => splitStep_snd_subset L line c (hb c hc)⟩
    · refine ⟨[line], ?_, ?_⟩
      · simp [splitSegF, hbig]
      · intro l hl
        rcases List.mem_cons.mp hl with rfl | h2
        · exact ⟨by omega, fun c hc => hc⟩
        · cases h2

theorem splitSegF_zero_stuck : ∀ (fuel : Nat) (seg : List Char), seg ≠ [] →
    splitSegF 0 fuel seg = none := by
  intro fuel
  induction fuel with
  | zero => intro seg h; rfl
  | succ f ih =>
    intro seg h
    have hlen : 0 < seg.length := List.length_pos.mpr h
    simp [splitSegF, hlen, splitStep_zero, ih seg h]

theorem splitSegF_small (L fuel : Nat) (line : List Char) (h : ¬ L < line.length) :
    splitSegF L (fuel + 1) line = some [line] := by
  simp [splitSegF, h]

theorem mapM_splitSegF (L : Nat) (hL : 1 ≤ L) : ∀ segs : List (List Char),
    ∃ out, segs.mapM (fun seg => splitSegF L (seg.length + 1) seg) = some out ∧
      out.length = segs.length ∧
      ∀ lls ∈ out, lls ≠ [] ∧ ∀ l ∈ lls, l.length ≤ L ∧ ∀ c ∈ l, ∃ seg ∈ segs, c ∈ seg := by
  intro segs
  induction segs with
  | nil => exact ⟨[], rfl, rfl, by simp⟩
  | cons seg rest ih =>
    obtain ⟨out, hout, hlen, hprop⟩ := ih
    obtain ⟨ls, hls, hlsprop⟩ := splitSegF_total L hL (seg.length + 1) seg (by omega)
    refine ⟨ls :: out, ?_, by simp [hlen], ?_⟩
    · rw [List.mapM_cons, hls, hout]
      rfl
    · intro lls hm
      rcases List.mem_cons.mp hm with rfl | h2
      · exact ⟨splitSegF_some_ne L _ seg lls hls, fun l hl =>
          ⟨(hlsprop l hl).1, fun c hc => ⟨seg, List.mem_cons_self _ _, (hlsprop l hl).2 c hc⟩⟩⟩
      · obtain ⟨ha, hb⟩ := hprop lls h2
        refine ⟨ha, fun l hl => ⟨(hb l hl).1, fun c hc => ?_⟩⟩
        obtain ⟨sg, hsg, hcs⟩ := (hb l hl).2 c hc
        exact ⟨sg, List.mem_cons_of_mem _ hsg, hcs⟩

theorem splitLines_spec (text : List Char) (L : Nat) (hL : 1 ≤ L) :
    ∃ ls, splitLines text L = some ls ∧ ls ≠ [] ∧
      ∀ l ∈ ls, l.length ≤ L ∧ '\n' ∉ l := by
  obtain ⟨out, hout, hlen, hprop⟩ := mapM_splitSegF L hL (jsSplitNewline text)
  refine ⟨out.flatten, ?_, ?_, ?_⟩
  · unfold splitLines
    rw [hout]
    rfl
  · cases hsegs : jsSplitNewline text with
    | nil => exact absurd hsegs (jsSplitOn_ne_nil _ _)
    | cons seg rest =>
      rw [hsegs] at hlen
      cases hcout : out with
      | nil => rw [hcout] at hlen; simp at hlen
      | cons lls rest2 =>
        have h1 : lls ≠ [] := (hprop lls (by rw [hcout]; exact List.mem_cons_self _ _)).1
        simp only [List.flatten_cons]
        intro hcontra
        exact h1 (List.append_eq_nil.mp hcontra).1
  · intro l hl
    obtain ⟨lls, hlls, hmem⟩ := List.mem_flatten.mp hl
    obtain ⟨_, hb⟩ := hprop lls hlls
    refine ⟨(hb l hmem).1, fun hnl => ?_⟩
    obtain ⟨sg, hsg, hcs⟩ := (hb l hmem).2 '\n' hnl
    exact not_mem_of_mem_jsSplitOn '\n' text sg hsg hcs

theorem splitLines_some_ne (text : List Char) (L : Nat) (ls : List (List Char))
    (h : splitLines text L = some ls) : ls ≠ [] := by
  unfold splitLines at h
  rcases Option.map_eq_some'.mp h with ⟨out, hout, rfl⟩
  cases hsegs : jsSplitNewline text with
  | nil => exact absurd hsegs (jsSplitOn_ne_nil _ _)
  | cons seg rest =>
    rw [hsegs, List.mapM_cons] at hout
    rcases Option.bind_eq_some.mp hout with ⟨ls1, h1, h2⟩
    rcases Option.bind_eq_some.mp h2 with ⟨out2, h3, h4⟩
    have h5 : out = ls1 :: out2 := by
      rw [Option.pure_def, Option.some_inj] at h4
      exact h4.symm
    have h6 := splitSegF_some_ne L _ seg ls1 h1
    rw [h5]
    simp only [List.flatten_cons]
    intro hcontra
    exact h6 (List.append_eq_nil.mp hcontra).1

/-- Content preservation of the wrap loop on well-behaved segments: no two
adjacent spaces, no leading space, and every all-non-space contiguous piece
strictly shorter than `L`.  The emitted lines, rejoined with single spaces,
reproduce the segment. -/
theorem splitSegF_rejoin (L : Nat) (hL : 1 ≤ L) : ∀ (fuel : Nat) (seg : List Char),
    seg.length < fuel →
    (∀ u v, seg ≠ u ++ ' ' :: ' ' :: v) →
    seg.head? ≠ some ' ' →
    (∀ u w v, seg = u ++ w ++ v → (∀ c ∈ w, c ≠ ' ') → w.length < L) →
    ∃ ls, splitSegF L fuel seg = some ls ∧ jsJoin ' ' ls = seg := by
  intro fuel
  induction fuel with
  | zero => intro seg h _ _ _; omega
  | succ f ih =>
    intro seg hlen hadj hhead hruns
    by_cases hbig : L < seg.length
    · have htklen : (seg.take L).length = L := by
        rw [List.length_take]; omega
      have hsp : ' ' ∈ seg.take L := by
        by_contra hns
        have : (seg.take L).length < L :=
          hruns [] (seg.take L) (seg.drop L) (by simp) (fun c hc e => hns (e ▸ hc))
        omega
      have hge : 0 ≤ lastIdxSpace (seg.take L) := by
        by_contra hneg
        exact ((lastIdxSpace_neg _).mp (by omega)) hsp
      obtain ⟨u, v, htake, hulen, hv⟩ := lastIdxSpace_decomp _ hge
      have hu : u ≠ [] := by
        intro h0
        subst h0
        rw [List.nil_append] at htake
        cases hsg : seg with
        | nil => rw [hsg] at hbig; simp at hbig
        | cons c t =>
          obtain ⟨k, rfl⟩ : ∃ k, L = k + 1 := ⟨L - 1, by omega⟩
          rw [hsg, List.take_succ_cons] at htake
          have hc : c = ' ' := ((List.cons.injEq _ _ _ _).mp htake).1
          apply hhead
          rw [hsg, hc]
          rfl
      have hune : 1 ≤ u.length := by
        cases u with
        | nil => exact absurd rfl hu
        | cons a b => simp
      have hstep := splitStep_space L seg u v hL htake hu hv
      have hseg : seg = u ++ ' ' :: (v ++ seg.drop L) := by
        conv_lhs => rw [← List.take_append_drop L seg]
        rw [htake]
        simp
      have hul1 : u.length + 1 + v.length = L := by
        rw [← htklen, htake]
        simp only [List.length_append, List.length_cons]
        omega
      have hlenseg : seg.length = u.length + 1 + (v ++ seg.drop L).length := by
        conv_lhs => rw [hseg]
        simp only [List.length_append, List.length_cons]
        omega
      have hadj0 : ∀ a b, v ++ seg.drop L ≠ a ++ ' ' :: ' ' :: b := by
        intro a b hcontra
        apply hadj (u ++ ' ' :: a) b
        rw [hseg, hcontra]
        simp
      have hhead0 : (v ++ seg.drop L).head? ≠ some ' ' := by
        intro hcontra
        cases hr : v ++ seg.drop L with
        | nil => rw [hr] at hcontra; cases hcontra
        | cons c t =>
          rw [hr] at hcontra
          have hc : c = ' ' := by simpa using hcontra
          apply hadj u t
          rw [hseg, hr, hc]
      have hruns0 : ∀ a w b, v ++ seg.drop L = a ++ w ++ b →
          (∀ c ∈ w, c ≠ ' ') → w.length < L := by
        intro a w b he hw
        apply hruns (u ++ ' ' :: a) w b ?_ hw
        rw [hseg, he]
        simp
      have hlen0 : (v ++ seg.drop L).length < f := by
        omega
      obtain ⟨ls0, hls0, hjoin0⟩ := ih (v ++ seg.drop L) hlen0 hadj0 hhead0 hruns0
      refine ⟨u :: ls0, ?_, ?_⟩
      · simp only [splitSegF, if_pos hbig]
        rw [hstep]
        dsimp only
        rw [hls0]
        rfl
      · rw [jsJoin_cons ' ' u ls0 (splitSegF_some_ne L f _ ls0 hls0), hjoin0]
        exact hseg.symm
    · exact ⟨[seg], splitSegF_small L f seg hbig, rfl⟩
/-! ## Idempotence machinery -/

theorem mapM_splitSegF_short (L : Nat) : ∀ ls : List (List Char),
    (∀ l ∈ ls, ¬ L < l.length) →
    ls.mapM (fun seg => splitSegF L (seg.length + 1) seg) =
      some (ls.map (fun l => [l])) := by
  intro ls
  induction ls with
  | nil => intro _; rfl
  | cons l rest ih =>
    intro h
    rw [List.mapM_cons, splitSegF_small L _ l (h l (List.mem_cons_self _ _)),
        ih (fun x hx => h x (List.mem_cons_of_mem _ hx))]
    rfl

theorem flatten_singletons : ∀ ls : List (List Char),
    (ls.map (fun l => [l])).flatten = ls := by
  intro ls
  induction ls with
  | nil => rfl
  | cons l rest ih => simp [ih]

theorem splitLines_idem (text : List Char) (L : Nat) (ls : List (List Char))
    (hL : 1 ≤ L) (h : splitLines text L = some ls) :
    splitLines (jsJoin '\n' ls) L = some ls := by
  obtain ⟨ls2, h2, hne, hprop⟩ := splitLines_spec text L hL
  rw [h, Option.some_inj] at h2
  subst h2
  unfold splitLines jsSplitNewline
  rw [jsSplitOn_jsJoin '\n' ls hne (fun l hl => (hprop l hl).2)]
  rw [mapM_splitSegF_short L ls (fun l hl => by have := (hprop l hl).1; omega)]
  simp [flatten_singletons]

/-! ## Correctness of the font-size dichotomy -/

theorem fszBody_inv (fit : Nat → Bool) (M : Nat) (st : Nat × Nat) (hM : 1 ≤ M)
    (h : fszI fit M st) : fszI fit M (fszBody fit st) := by
  unfold fszI at h ⊢
  obtain ⟨h1, h2, h3, h4⟩ := h
  unfold fszBody
  dsimp only
  by_cases hf : fit ((st.1 + st.2) / 2) = true
  · rw [if_pos hf]
    exact ⟨by omega, h2, Or.inr hf, h4⟩
  · have hff : fit ((st.1 + st.2) / 2) = false := by
      revert hf
      cases fit ((st.1 + st.2) / 2) <;> simp
    rw [if_neg hf]
    exact ⟨h1, by omega, h3, Or.inr hff⟩

theorem fszBody_gap (fit : Nat → Bool) (st : Nat × Nat)
    (h : 1 < (fszBody fit st).2 - (fszBody fit st).1) :
    (fszBody fit st).2 - (fszBody fit st).1 < st.2 - st.1 := by
  unfold fszBody at h ⊢
  dsimp only at h ⊢
  by_cases hf : fit ((st.1 + st.2) / 2) = true
  · rw [if_pos hf] at h ⊢
    dsimp only at h ⊢
    omega
  · rw [if_neg hf] at h ⊢
    dsimp only at h ⊢
    omega

theorem fszLoop_inv (fit : Nat → Bool) (M : Nat) (hM : 1 ≤ M) :
    ∀ (fuel : Nat) (st : Nat × Nat), fszI fit M st → st.2 - st.1 ≤ fuel →
    fszI fit M (fszLoop fit fuel st) ∧
      (fszLoop fit fuel st).2 - (fszLoop fit fuel st).1 ≤ 1 := by
  intro fuel
  induction fuel with
  | zero =>
    intro st h hgap
    simp only [fszLoop]
    exact ⟨h, by omega⟩
  | succ f ih =>
    intro st h hgap
    simp only [fszLoop]
    by_cases hcont : 1 < (fszBody fit st).2 - (fszBody fit st).1
    · rw [if_pos hcont]
      have hlt := fszBody_gap fit st hcont
      exact ih (fszBody fit st) (fszBody_inv fit M st hM h) (by omega)
    · rw [if_neg hcont]
      exact ⟨fszBody_inv fit M st hM h, by omega⟩

/-- Full characterization of `computeFontSize` for a size-monotone
measurement provider: the result is the largest fitting size in
`[0, maxFontSize - 1]` (`0` when nothing fits), and when everything fits it
is exactly `maxFontSize - 1`. -/
theorem computeFontSize_correct (measure : Measure) (cv : Canvas) (M : Nat)
    (text : List Char) (hM : 1 ≤ M)
    (hmono : ∀ s t : Nat, s ≤ t → fitsB cv (measure text t) = true →
      fitsB cv (measure text s) = true) :
    computeFontSize measure cv M text ≤ M - 1 ∧
    (computeFontSize measure cv M text = 0 ∨
      fitsB cv (measure text (computeFontSize measure cv M text)) = true) ∧
    (∀ s, s ≤ M - 1 → fitsB cv (measure text s) = true →
      s ≤ computeFontSize measure cv M text) ∧
    ((∀ s, fitsB cv (measure text s) = true) →
      computeFontSize measure cv M text = M - 1) := by
  unfold computeFontSize
  have h0 : fszI (fun s => fitsB cv (measure text s)) M (0, M) := by
    unfold fszI
    exact ⟨by omega, le_refl M, Or.inl rfl, Or.inl rfl⟩
  obtain ⟨hinv, hgap⟩ :=
    fszLoop_inv (fun s => fitsB cv (measure text s)) M hM (M + 1) (0, M) h0 (by omega)
  set p := fszLoop (fun s => fitsB cv (measure text s)) (M + 1) (0, M) with hp
  unfold fszI at hinv
  obtain ⟨h1, h2, h3, h4⟩ := hinv
  have hmax : ∀ s, s ≤ M - 1 → fitsB cv (measure text s) = true → s ≤ p.1 := by
    intro s hs hfs
    rcases h4 with he | hnf
    · omega
    · by_contra hgt
      push_neg at hgt
      have hbs : p.2 ≤ s := by omega
      have := hmono p.2 s hbs hfs
      simp only [hnf] at this
      cases this
  refine ⟨h1, ?_, hmax, ?_⟩
  · rcases h3 with h | h
    · exact Or.inl h
    · exact Or.inr h
  · intro hall
    have := hmax (M - 1) (le_refl _) (hall (M - 1))
    omega

/-! ## The route loop always reaches the render phase -/

theorem routeBody_lines_ne (measure : Measure) (cv : Canvas) (M : Nat) (lh : LineHeight)
    (text : List Char) (d d2 : Dicho) (hne : d.lines ≠ [])
    (h : routeBody measure cv M lh text d = some d2) : d2.lines ≠ [] := by
  unfold routeBody at h
  rcases Option.map_eq_some'.mp h with ⟨splitted, hsp, he⟩
  have hsne : splitted ≠ [] := splitLines_some_ne text _ splitted hsp
  subst he
  dsimp only
  split
  · split
    · exact hsne
    · exact hsne
  · exact hne

theorem routeLoop_lines_ne (measure : Measure) (cv : Canvas) (M : Nat)
    (lh : LineHeight) (text : List Char) : ∀ (fuel : Nat) (d d2 : Dicho),
    d.lines ≠ [] → routeLoop measure cv M lh text fuel d = some d2 →
    d2.lines ≠ [] := by
  intro fuel
  induction fuel with
  | zero => intro d d2 _ h; cases h
  | succ f ih =>
    intro d d2 hne h
    simp only [routeLoop] at h
    cases hb : routeBody measure cv M lh text d with
    | none => rw [hb] at h; cases h
    | some dB =>
      rw [hb] at h
      dsimp only at h
      have hBne : dB.lines ≠ [] :=
        routeBody_lines_ne measure cv M lh text d dB hne hb
      split at h
      · exact ih dB d2 hBne h
      · rw [Option.some_inj] at h
        subst h
        exact hBne

/-! ## Shapes of `drawWord` and non-emptiness of the render phase -/

theorem drawWordRev_base (w : List Char → ℚ) (x : ℚ) (c : Char) (rest : List Char)
    (h : ¬ (c = '!' ∧ rest ≠ [])) :
    drawWordRev w x (c :: rest) =
      ([((c :: rest).reverse, x)], w ((c :: rest).reverse ++ [' '])) := by
  simp only [drawWordRev]
  rw [if_neg h]

theorem drawWordRev_rec (w : List Char → ℚ) (x : ℚ) (rest : List Char) (h : rest ≠ []) :
    drawWordRev w x ('!' :: rest) =
      ((drawWordRev w x rest).1 ++ [(['!'], x + (drawWordRev w x rest).2)],
        (drawWordRev w x rest).2 + w ['!', ' ']) := by
  simp only [drawWordRev]
  rw [if_pos (by simp [h])]

theorem drawWordRev_ne (w : List Char → ℚ) (x : ℚ) :
    ∀ rev : List Char, (drawWordRev w x rev).1 ≠ [] := by
  intro rev
  cases rev with
  | nil => simp [drawWordRev]
  | cons c rest =>
    by_cases h : c = '!' ∧ rest ≠ []
    · obtain ⟨hc, hrest⟩ := h
      subst hc
      rw [drawWordRev_rec w x rest hrest]
      simp
    · rw [drawWordRev_base w x c rest h]
      simp

theorem renderWords_ne (w : List Char → ℚ) (words : List (List Char)) (x : ℚ)
    (h : words ≠ []) : renderWords w words x ≠ [] := by
  cases words with
  | nil => exact absurd rfl h
  | cons word rest =>
    simp only [renderWords]
    intro hc
    rcases List.append_eq_nil.mp hc with ⟨h1, _⟩
    exact drawWordRev_ne w x word.reverse h1

theorem renderLine_ne (w : List Char → ℚ) (cvW : ℚ) (line : List Char) :
    renderLine w cvW line ≠ [] := by
  unfold renderLine
  exact renderWords_ne w _ _ (jsSplitOn_ne_nil ' ' line)

theorem renderAll_ne (w : List Char → ℚ) (cvW lhv : ℚ) (lines : List (List Char))
    (y : ℚ) (h : lines ≠ []) : renderAll w cvW lhv lines y ≠ [] := by
  cases lines with
  | nil => exact absurd rfl h
  | cons line rest =>
    simp only [renderAll]
    intro hc
    rcases List.append_eq_nil.mp hc with ⟨h1, _⟩
    exact renderLine_ne w cvW line (List.map_eq_nil_iff.mp h1)

theorem renderPhase_ne (measure : Measure) (cv : Canvas) (lh : LineHeight)
    (fontSize : Nat) (lines : List (List Char)) (h : lines ≠ []) :
    renderPhase measure cv lh fontSize lines ≠ [] := by
  unfold renderPhase
  exact renderAll_ne _ _ _ lines _ h

/-- The exclamation-splitting equation of `drawWord` for a word with exactly
one trailing `'!'`: two sub-draws, the second at `x` plus the advance
returned for the stem (which is the measured width of the stem followed by
a space), total advance the sum of the two sub-advances. -/
theorem drawWord_bang (w : List Char → ℚ) (x : ℚ) (p : List Char) (hp : p ≠ [])
    (hlast : p.getLast? ≠ some '!' ∨ p.length = 1) :
    drawWord w (p ++ ['!']) x =
      ([(p, x), (['!'], x + w (p ++ [' ']))], w (p ++ [' ']) + w ['!', ' ']) := by
  unfold drawWord
  rw [List.reverse_append]
  simp only [List.reverse_cons, List.reverse_nil, List.nil_append, List.singleton_append]
  cases hrev : p.reverse with
  | nil =>
    exfalso
    apply hp
    have := congrArg List.reverse hrev
    simpa using this
  | cons c rest =>
    have hbase : ¬ (c = '!' ∧ rest ≠ []) := by
      rcases hlast with h | h
      · intro hand
        apply h
        rw [← List.head?_reverse, hrev, hand.1]
        rfl
      · intro hand
        apply hand.2
        have hlen := congrArg List.length hrev
        rw [List.length_reverse, h] at hlen
        simp only [List.length_cons] at hlen
        exact List.length_eq_zero.mp (by omega)
    rw [drawWordRev_rec w x (c :: rest) (by simp)]
    rw [drawWordRev_base w x c rest hbase]
    have hpr : (c :: rest).reverse = p := by
      rw [← hrev, List.reverse_reverse]
    rw [hpr]
    rfl

/-! ## Claim theorems -/

/-- C1 counterexample: with the all-zero measurement provider (deterministic
and monotone in font size; under it every size fits, exactly as for empty
text), `maxFontSize = 100` and empty text, `computeFontSize` returns `99`
although size `100` fits.  The claim that the solver returns the largest
fitting integer in `[0, maxFontSize]` — and `maxFontSize` for empty text —
fails: the dichotomy returns the final `min`, which never reaches `max`. -/
theorem C1_cex :
    computeFontSize measureZero cvDefault 100 [] = 99 ∧
    fitsB cvDefault (measureZero [] 100) = true := by
  constructor
  · rfl
  · rfl

/-- C1 (amended): for every text, canvas, `maxFontSize ≥ 1` and measurement
provider monotone in font size, `computeFontSize` returns the largest
integer `s` in `[0, maxFontSize - 1]` such that the text fits at `s` (and
`0` when no size in that range fits); in particular when every size fits —
as for empty text — it returns `maxFontSize - 1`. -/
theorem C1_computeFontSize_corrected (measure : Measure) (cv : Canvas) (M : Nat)
    (text : List Char) (hM : 1 ≤ M)
    (hmono : ∀ s t : Nat, s ≤ t → fitsB cv (measure text t) = true →
      fitsB cv (measure text s) = true) :
    computeFontSize measure cv M text ≤ M - 1 ∧
    (computeFontSize measure cv M text = 0 ∨
      fitsB cv (measure text (computeFontSize measure cv M text)) = true) ∧
    (∀ s, s ≤ M - 1 → fitsB cv (measure text s) = true →
      s ≤ computeFontSize measure cv M text) ∧
    ((∀ s, fitsB cv (measure text s) = true) →
      computeFontSize measure cv M text = M - 1) :=
  computeFontSize_correct measure cv M text hM hmono

/-- Witness for C1 at the linear-width provider `mLin`, canvas `10 × 10`,
`maxFontSize = 100`, empty text: the hypotheses are satisfiable and the
characterization holds (the solver returns the largest `s ≤ 99` with
`s ≤ 10`, i.e. `10`). -/
theorem C1_witness :
    computeFontSize mLin cv10 100 [] ≤ 100 - 1 ∧
    (computeFontSize mLin cv10 100 [] = 0 ∨
      fitsB cv10 (mLin [] (computeFontSize mLin cv10 100 [])) = true) ∧
    (∀ s, s ≤ 100 - 1 → fitsB cv10 (mLin [] s) = true →
      s ≤ computeFontSize mLin cv10 100 []) ∧
    ((∀ s, fitsB cv10 (mLin [] s) = true) →
      computeFontSize mLin cv10 100 [] = 100 - 1) :=
  C1_computeFontSize_corrected mLin cv10 100 [] (by norm_num)
    (by
      intro s t hst h
      simp only [fitsB, mLin, cv10, Bool.and_eq_true, decide_eq_true_eq] at h ⊢
      refine ⟨?_, h.2⟩
      have hq : (s : ℚ) ≤ (t : ℚ) := by exact_mod_cast hst
      exact le_trans hq h.1)

/-- C3: the layout computation does NOT always terminate.  For request text
"a" the wrap-width dichotomy starts from `{min: 0, max: 1}`, so its first
(do-while) iteration calls `splitLines("a", 0)`; with `maxLineLength = 0`
the wrap loop makes no progress on a nonempty segment for any amount of
fuel (first conjunct), and the whole `/image` route therefore never returns
(second conjunct — `none` is the divergence marker of the embedding). -/
theorem C3_route_diverges :
    (∀ fuel : Nat, splitSegF 0 fuel ['a'] = none) ∧
    imageRoute measureZero cvDefault 2 lh0 ['a'] = none := by
  constructor
  · intro fuel
    exact splitSegF_zero_stuck fuel ['a'] (by decide)
  · rfl

/-- C4 (confirmed): for `maxLineLength ≥ 1` every line emitted by
`splitLines` has length at most `maxLineLength`, and a forced hard break
(no space at positive index inside the window — in particular when a run of
at least `L` non-space characters fills it) emits a line of length exactly
`L`. -/
theorem C4_wrap_bound (text : List Char) (L : Nat) (hL : 1 ≤ L) :
    (∃ ls, splitLines text L = some ls ∧ ∀ l ∈ ls, l.length ≤ L) ∧
    (∀ line : List Char, L < line.length → lastIdxSpace (line.take L) ≤ 0 →
      (splitStep L line).1.length = L) := by
  constructor
  · obtain ⟨ls, h1, _, h3⟩ := splitLines_spec text L hL
    exact ⟨ls, h1, fun l hl => (h3 l hl).1⟩
  · intro line h1 h2
    exact splitStep_forced_len L line h2 h1

/-- Witness for C4 at text "aaaa bb" and `L = 3` (the first window has no
space, so a hard break of length exactly 3 occurs). -/
theorem C4_witness :
    1 ≤ 3 ∧
    ((∃ ls, splitLines ['a', 'a', 'a', 'a', ' ', 'b', 'b'] 3 = some ls ∧
        ∀ l ∈ ls, l.length ≤ 3) ∧
     (∀ line : List Char, 3 < line.length → lastIdxSpace (line.take 3) ≤ 0 →
        (splitStep 3 line).1.length = 3)) :=
  ⟨by decide, C4_wrap_bound ['a', 'a', 'a', 'a', ' ', 'b', 'b'] 3 (by decide)⟩

/-- C6 (amended): the code performs no argument validation at all.  With
`maxLineLength = 0` on any nonempty segment the wrap loop neither raises an
`InvalidArgument` error (no error value exists in the code) nor produces
lines: it makes no progress and never returns, whatever the fuel. -/
theorem C6_no_validation : ∀ (fuel : Nat) (seg : List Char), seg ≠ [] →
    splitSegF 0 fuel seg = none :=
  fun fuel seg h => splitSegF_zero_stuck fuel seg h

/-- C6 counterexample: calling the wrapper with `maxLineLength = 0` on "a"
does not fail before the search — the loop body leaves the state unchanged
and `splitLines` diverges; no error is ever raised and no lines are
produced. -/
theorem C6_cex :
    splitStep 0 ['a'] = ([], ['a']) ∧ splitLines ['a'] 0 = none := by
  constructor
  · rfl
  · rfl

/-- Witness for C6 at fuel 37 and segment "a". -/
theorem C6_witness : (['a'] : List Char) ≠ [] ∧ splitSegF 0 37 ['a'] = none :=
  ⟨by decide, C6_no_validation 37 ['a'] (by decide)⟩

/-- Bridge: the decidable `noAdjB` implies the no-adjacent-spaces side
condition. -/
theorem noAdjB_spec : ∀ l : List Char, noAdjB l = true →
    ∀ u v, l ≠ u ++ ' ' :: ' ' :: v := by
  intro l
  induction l with
  | nil =>
    intro _ u v h
    have hlen := congrArg List.length h
    simp [List.length_append] at hlen
    omega
  | cons c rest ih =>
    intro hB u v h
    cases rest with
    | nil =>
      have hlen := congrArg List.length h
      simp [List.length_append] at hlen
      omega
    | cons c2 rest2 =>
      have hB2 : (¬ c = ' ' ∨ ¬ c2 = ' ') ∧ noAdjB (c2 :: rest2) = true := by
        simpa [noAdjB] using hB
      cases u with
      | nil =>
        rw [List.nil_append] at h
        injection h with h1 h2
        injection h2 with h2 _
        rcases hB2.1 with hx | hx
        · exact hx h1
        · exact hx h2
      | cons a u2 =>
        rw [List.cons_append] at h
        injection h with _ h2
        exact ih hB2.2 u2 v h2

/-- Bridge: the decidable `runsLtB` implies the short-runs side condition. -/
theorem runsLtB_spec (L : Nat) (l : List Char) (hB : runsLtB L l = true) :
    ∀ u w v, l = u ++ w ++ v → (∀ c ∈ w, c ≠ ' ') → w.length < L := by
  intro u w v he hw
  unfold runsLtB at hB
  rw [List.all_eq_true] at hB
  have hsuf : u ++ (w ++ v) = l := by rw [he, List.append_assoc]
  have h2 := hB (w ++ v) ((List.mem_tails _ _).mpr ⟨u, hsuf⟩)
  rw [List.all_eq_true] at h2
  have h3 := h2 w ((List.mem_inits _ _).mpr ⟨v, rfl⟩)
  have hall : (w.all fun c => !(c = ' ')) = true := by
    rw [List.all_eq_true]
    intro c hc
    simpa using hw c hc
  rw [hall] at h3
  simpa using h3

/-- C9 (confirmed): wrapping is idempotent — wrapping the newline-join of an
already wrapped text again with the same `maxLineLength ≥ 1` reproduces the
same line set. -/
theorem C9_wrap_idempotent (text : List Char) (L : Nat) (ls : List (List Char))
    (hL : 1 ≤ L) (h : splitLines text L = some ls) :
    splitLines (jsJoin '\n' ls) L = some ls :=
  splitLines_idem text L ls hL h

/-- Witness for C9 at text "a b c" and `L = 2`. -/
theorem C9_witness :
    1 ≤ 2 ∧
    splitLines ['a', ' ', 'b', ' ', 'c'] 2 = some [['a'], ['b'], ['c']] ∧
    splitLines (jsJoin '\n' [['a'], ['b'], ['c']]) 2 = some [['a'], ['b'], ['c']] :=
  ⟨by decide, by decide,
    C9_wrap_idempotent ['a', ' ', 'b', ' ', 'c'] 2 [['a'], ['b'], ['c']]
      (by decide) (by decide)⟩

/-- C10 (confirmed): on a well-behaved segment — no two adjacent spaces, not
starting with a space, and every all-non-space contiguous piece strictly
shorter than `L` — the wrap loop loses no content: rejoining the emitted
lines with single spaces reproduces the segment exactly (each chosen break
replaces the one space at the break point). -/
theorem C10_wrap_preserves_content (L : Nat) (seg : List Char) (hL : 1 ≤ L)
    (hadj : ∀ u v, seg ≠ u ++ ' ' :: ' ' :: v)
    (hhead : seg.head? ≠ some ' ')
    (hruns : ∀ u w v, seg = u ++ w ++ v → (∀ c ∈ w, c ≠ ' ') → w.length < L) :
    ∃ ls, splitSegF L (seg.length + 1) seg = some ls ∧ jsJoin ' ' ls = seg :=
  splitSegF_rejoin L hL (seg.length + 1) seg (by omega) hadj hhead hruns

/-- Witness for C10 at segment "ab cd ef" and `L = 3`. -/
theorem C10_witness :
    1 ≤ 3 ∧
    ∃ ls, splitSegF 3 9 ['a', 'b', ' ', 'c', 'd', ' ', 'e', 'f'] = some ls ∧
      jsJoin ' ' ls = ['a', 'b', ' ', 'c', 'd', ' ', 'e', 'f'] :=
  ⟨by decide,
    C10_wrap_preserves_content 3 ['a', 'b', ' ', 'c', 'd', ' ', 'e', 'f'] (by decide)
      (noAdjB_spec _ (by decide)) (by decide) (runsLtB_spec 3 _ (by decide))⟩

/-- C2: the optimizer fit guarantee fails on the seed exit path.  The route
seeds the dichotomy with `computeFontSize(lines)`, passing the lines array
itself; `measureText` coerces the array to the comma-join `lines.join(',')`
instead of the newline-join (the other call site passes
`splittedLines.join('\\n')`, and `computeFontSize` documents a string
parameter).  With the deterministic, size-monotone provider `mSeg` (width
grows with the longest segment, ascent with the segment count), canvas
`10 × 1.5`, `maxFontSize = 2` and text "ab\\ncd", the route returns font
size `1 > 0` with lines `["ab", "cd"]` — but the newline-join measured at
size 1 overflows the canvas height (`2 > 1.5`). -/
theorem C2_seed_layout_overflows :
    (imageRoute mSeg cvC2 2 lh0 ['a', 'b', '\n', 'c', 'd']).map
        (fun o => (o.1, o.2.1)) = some (1, [['a', 'b'], ['c', 'd']]) ∧
    fitsB cvC2 (mSeg ['a', 'b', '\n', 'c', 'd'] 1) = false := by
  constructor
  · decide
  · decide

/-- C5 counterexample: with a provider under which no positive size fits
(width `11 + s` against a width-10 canvas), the solver's best stays `0`,
yet the route surfaces no failure: it returns font size `0` and the render
phase still performs one draw call for the single word "ab". -/
theorem C5_cex :
    (imageRoute mBig cv10 2 lh0 ['a', 'b']).map
        (fun o => (o.1, o.2.2.length)) = some (0, 1) := by
  decide

/-- C5 (amended): the code never surfaces a layout failure — for every
measurement provider, canvas, cap, line-height oracle and text, whenever
the route returns at all it reaches the render phase and emits draw calls,
including when the solved font size is `0` (no `NoFittingSize` error exists
in the code). -/
theorem C5_silently_renders_at_zero (measure : Measure) (cv : Canvas) (M : Nat)
    (lh : LineHeight) (text : List Char) (out : Nat × List (List Char) × List Draw)
    (h : imageRoute measure cv M lh text = some out) : out.2.2 ≠ [] := by
  unfold imageRoute at h
  rcases Option.map_eq_some'.mp h with ⟨d, hd, he⟩
  subst he
  dsimp only
  apply renderPhase_ne
  exact routeLoop_lines_ne measure cv M lh text _ _ d
    (jsSplitOn_ne_nil '\n' text) hd

/-- Witness for C5 at the nothing-fits run: the route output has font size
`0` and a nonempty draw list. -/
theorem C5_witness :
    (((0, [['a', 'b']], [Draw.mk ['a', 'b'] (-1 / 2) 5]) :
      Nat × List (List Char) × List Draw)).2.2 ≠ [] :=
  C5_silently_renders_at_zero mBig cv10 2 lh0 ['a', 'b']
    (0, [['a', 'b']], [Draw.mk ['a', 'b'] (-1 / 2) 5]) (by decide)

/-- C7 counterexample: with the per-character width function `charWidth`
(every glyph and the space have width 1), `drawWord("Great!")` draws
`"Great"` at 0 and `'!'` at `6 = charWidth "Great "` — the advance
returned for the stem, not the stem's measured width `5` — and returns
total advance `8 = charWidth "Great " + charWidth "! "`, not the claimed
`charWidth "Great! " = 7`: each sub-draw adds the width of its own
trailing space. -/
theorem C7_cex :
    drawWord charWidth ['G', 'r', 'e', 'a', 't', '!'] 0 =
      ([(['G', 'r', 'e', 'a', 't'], 0), (['!'], 6)], 8) ∧
    charWidth ['G', 'r', 'e', 'a', 't', '!', ' '] = 7 ∧
    charWidth ['G', 'r', 'e', 'a', 't'] = 5 := by
  refine ⟨?_, ?_, ?_⟩ <;> decide

/-- C7 (amended): for a word made of a stem `p` (nonempty and not itself
subject to splitting: either a single character or not ending in `'!'`)
followed by one `'!'`, `drawWord` performs exactly two sub-draws — `p` at
`x`, then `'!'` at `x + w(p ++ " ")`, the advance returned for the stem,
which is the measured width of the stem followed by a space — and the total
advance is `w(p ++ " ") + w("! ")`, not the measured width of the whole
word followed by a space. -/
theorem C7_drawWord_corrected (w : List Char → ℚ) (x : ℚ) (p : List Char)
    (hp : p ≠ []) (hlast : p.getLast? ≠ some '!' ∨ p.length = 1) :
    drawWord w (p ++ ['!']) x =
      ([(p, x), (['!'], x + w (p ++ [' ']))], w (p ++ [' ']) + w ['!', ' ']) :=
  drawWord_bang w x p hp hlast

/-- Witness for C7 at the stem "Great" and `charWidth`. -/
theorem C7_witness :
    (['G', 'r', 'e', 'a', 't'] : List Char) ≠ [] ∧
    drawWord charWidth (['G', 'r', 'e', 'a', 't'] ++ ['!']) 0 =
      ([(['G', 'r', 'e', 'a', 't'], 0),
        (['!'], 0 + charWidth (['G', 'r', 'e', 'a', 't'] ++ [' ']))],
        charWidth (['G', 'r', 'e', 'a', 't'] ++ [' ']) + charWidth ['!', ' ']) :=
  ⟨by decide,
    C7_drawWord_corrected charWidth 0 ['G', 'r', 'e', 'a', 't'] (by decide)
      (Or.inl (by decide))⟩

/-- C8 (confirmed): `getColor` returns the base color for the empty word;
for a nonempty word (and distinct configured colors) it returns the special
color iff some configured special word matches — Levenshtein distance `≤ 2`
under the collator for special words of length `> 3`, case-insensitive
equality otherwise — and the three concrete examples hold: `getColor ""`
is the base color, `getColor "ok"` with list `["ok"]` and
`getColor "wonderfull"` with list `["wonderful"]` are the special color. -/
theorem C8_getColor_correct :
    (∀ (cfg : ColorCfg) (eqc : Char → Char → Bool), getColor cfg eqc [] = cfg.base) ∧
    (∀ (cfg : ColorCfg) (eqc : Char → Char → Bool) (word : List Char),
      cfg.base ≠ cfg.special → word ≠ [] →
      (getColor cfg eqc word = cfg.special ↔
        ∃ sw ∈ cfg.specialWords,
          if 3 < sw.length then levenshtein eqc word sw ≤ 2
          else word.map Char.toLower = sw.map Char.toLower)) ∧
    getColor cfgOk eqb [] = "#fff" ∧
    getColor cfgOk eqb ['o', 'k'] = "#FB7417" ∧
    getColor cfgWonder eqb ['w', 'o', 'n', 'd', 'e', 'r', 'f', 'u', 'l', 'l'] =
      "#FB7417" := by
  refine ⟨?_, ?_, by decide, by decide, by decide⟩
  · intro cfg eqc
    simp [getColor]
  · intro cfg eqc word hne hw
    unfold getColor
    rw [if_neg hw]
    by_cases hany : (cfg.specialWords.any (fun sw =>
        if 3 < sw.length then levenshtein eqc word sw ≤ 2
        else word.map Char.toLower = sw.map Char.toLower)) = true
    · rw [if_pos hany]
      constructor
      · intro _
        rw [List.any_eq_true] at hany
        obtain ⟨sw, hmem, hsw⟩ := hany
        refine ⟨sw, hmem, ?_⟩
        by_cases hlen : 3 < sw.length
        · rw [if_pos hlen]
          rw [if_pos hlen] at hsw
          exact of_decide_eq_true hsw
        · rw [if_neg hlen]
          rw [if_neg hlen] at hsw
          exact of_decide_eq_true hsw
      · intro _
        rfl
    · rw [if_neg hany]
      constructor
      · intro hcontra
        exact absurd hcontra hne
      · rintro ⟨sw, hmem, hsw⟩
        exfalso
        apply hany
        rw [List.any_eq_true]
        refine ⟨sw, hmem, ?_⟩
        by_cases hlen : 3 < sw.length
        · rw [if_pos hlen]
          rw [if_pos hlen] at hsw
          exact decide_eq_true hsw
        · rw [if_neg hlen]
          rw [if_neg hlen] at hsw
          exact decide_eq_true hsw

/-- Witness for C8: the matching machinery at the "ok" example, through the
iff. -/
theorem C8_witness : getColor cfgOk eqb ['o', 'k'] = "#FB7417" := by
  refine (C8_getColor_correct.2.1 cfgOk eqb ['o', 'k'] (by decide) (by decide)).mpr ?_
  exact ⟨['o', 'k'], by decide, by decide⟩

end ImagePlaceholder
